import Mathlib

/-!
Verification of the Salsa20 file-encryption program (Source/Main.cpp) against
its natural-language specification.

Strings are modelled as lists of natural numbers (ASCII codes); bytes are
natural numbers below 256; 32-bit words are natural numbers reduced modulo
2^32 at every operation.  The Cypher engine lives in Salsa20.h, which is not
part of the visible sources; it is modelled from the specification, and every
such definition carries a doc comment starting with "Modelled from the spec:".
All other definitions are translated directly from Source/Main.cpp.
-/

namespace Salsa20

/-! ## Spec-modelled Salsa20 engine (Salsa20.h is not among the sources) -/

/-- Modelled from the spec: "Key: exactly 32 bytes" (Cypher::KEY_SIZE in
Salsa20.h, which is missing from the sources). -/
def Cypher.KEY_SIZE : Nat := 32

/-- Modelled from the spec: "Nonce: exactly 8 bytes" (Cypher::IV_SIZE in
Salsa20.h, which is missing from the sources). -/
def Cypher.IV_SIZE : Nat := 8

/-- Modelled from the spec: "Keystream Block: 64 bytes" (Cypher::BLOCK_SIZE in
Salsa20.h, which is missing from the sources). -/
def Cypher.BLOCK_SIZE : Nat := 64

/-- Addition of 32-bit words, reduced modulo 2^32. -/
def add32 (a b : Nat) : Nat := (a + b) % 2 ^ 32

/-- Left rotation of a 32-bit word by n bits (0 < n < 32). -/
def rotl32 (x n : Nat) : Nat := ((x <<< n) % 2 ^ 32) ||| (x >>> (32 - n))

/-- Modelled from the spec: the quarter-round, the four-step add-rotate-xor
chain with rotation constants 7, 9, 13, 18 applied cyclically to (a,b,c,d),
bit-for-bit as in the fixed public Salsa20 specification. -/
def quarterRound (a b c d : Nat) : Nat × Nat × Nat × Nat :=
  let b := b ^^^ rotl32 (add32 a d) 7
  let c := c ^^^ rotl32 (add32 b a) 9
  let d := d ^^^ rotl32 (add32 c b) 13
  let a := a ^^^ rotl32 (add32 d c) 18
  (a, b, c, d)

/-- Modelled from the spec: a double-round applies the quarter-round to the
four columns of the 4x4 word matrix, then to the four diagonals. -/
def doubleRound : List Nat → List Nat
  | [x0, x1, x2, x3, x4, x5, x6, x7, x8, x9, x10, x11, x12, x13, x14, x15] =>
    let (y0, y4, y8, y12) := quarterRound x0 x4 x8 x12
    let (y5, y9, y13, y1) := quarterRound x5 x9 x13 x1
    let (y10, y14, y2, y6) := quarterRound x10 x14 x2 x6
    let (y15, y3, y7, y11) := quarterRound x15 x3 x7 x11
    let (z0, z1, z2, z3) := quarterRound y0 y1 y2 y3
    let (z5, z6, z7, z4) := quarterRound y5 y6 y7 y4
    let (z10, z11, z8, z9) := quarterRound y10 y11 y8 y9
    let (z15, z12, z13, z14) := quarterRound y15 y12 y13 y14
    [z0, z1, z2, z3, z4, z5, z6, z7, z8, z9, z10, z11, z12, z13, z14, z15]
  | s => s

/-- Iterating the double-round; 10 iterations give the 20-round permutation. -/
def doubleRounds : Nat → List Nat → List Nat
  | 0, s => s
  | k + 1, s => doubleRounds k (doubleRound s)

/-- A 32-bit little-endian word assembled from four bytes. -/
def le32 (b0 b1 b2 b3 : Nat) : Nat :=
  b0 ||| (b1 <<< 8) ||| (b2 <<< 16) ||| (b3 <<< 24)

/-- The i-th little-endian 32-bit word of a byte sequence. -/
def word32At (bytes : List Nat) (i : Nat) : Nat :=
  le32 (bytes.getD (4 * i) 0) (bytes.getD (4 * i + 1) 0)
       (bytes.getD (4 * i + 2) 0) (bytes.getD (4 * i + 3) 0)

/-- Little-endian byte serialization of one 32-bit word. -/
def wordToBytes (w : Nat) : List Nat :=
  [w % 256, (w >>> 8) % 256, (w >>> 16) % 256, (w >>> 24) % 256]

/-- Modelled from the spec: the Word State layout -- constants at positions
0, 5, 10, 15; key words at 1-4 and 11-14; nonce words at 6-7; counter words
at 8-9, all little-endian, counter split into low and high 32-bit words. -/
def buildState (key nonce : List Nat) (counter : Nat) : List Nat :=
  [0x61707865,
   word32At key 0, word32At key 1, word32At key 2, word32At key 3,
   0x3320646E,
   word32At nonce 0, word32At nonce 1,
   counter % 2 ^ 32, (counter >>> 32) % 2 ^ 32,
   0x79622D32,
   word32At key 4, word32At key 5, word32At key 6, word32At key 7,
   0x6B206574]

/-- Modelled from the spec: the Core Block Function applies 10 double-rounds
to a copy of the state and then adds each permuted word to the corresponding
original word modulo 2^32 (the feed-forward step). -/
def salsa20Core (st : List Nat) : List Nat :=
  List.zipWith add32 (doubleRounds 10 st) st

/-- Modelled from the spec: the 64-byte keystream block for a given key,
nonce and block-counter value -- the little-endian serialization of the 16
output words of the Core Block Function. -/
def keystreamBlock (key nonce : List Nat) (counter : Nat) : List Nat :=
  ((salsa20Core (buildState key nonce counter)).map wordToBytes).flatten

/-- Modelled from the spec: the Counter Cipher engine state -- a key, a
nonce, and the live 64-bit block counter. -/
structure Cypher where
  key : List Nat
  nonce : List Nat
  counter : Nat
  deriving DecidableEq, Repr

/-- Modelled from the spec: engine construction from a 32-byte key with the
block counter initialized to zero (Cypher::Cypher(key) in Salsa20.h). -/
def Cypher.fromKey (key : List Nat) : Cypher :=
  { key := key, nonce := List.replicate Cypher.IV_SIZE 0, counter := 0 }

/-- Modelled from the spec: rekeyNonce/setIv replaces the nonce words and
resets both counter words to 0, leaving the key untouched. -/
def Cypher.setIv (c : Cypher) (iv : List Nat) : Cypher :=
  { key := c.key, nonce := iv, counter := 0 }

/-- Modelled from the spec: processFullBlocks -- for each of n consecutive
64-byte chunks, derive the current keystream block, exclusive-or it bytewise
into the input, and advance the counter by 1. -/
def Cypher.processBlocks (c : Cypher) (input : List Nat) : Nat → List Nat × Cypher
  | 0 => ([], c)
  | n + 1 =>
    let out := List.zipWith Nat.xor (input.take Cypher.BLOCK_SIZE)
      (keystreamBlock c.key c.nonce c.counter)
    let rest := Cypher.processBlocks
      { key := c.key, nonce := c.nonce, counter := c.counter + 1 }
      (input.drop Cypher.BLOCK_SIZE) n
    (out ++ rest.1, rest.2)

/-- Modelled from the spec: processPartialBlock -- derives one keystream
block, exclusive-ors only the first numBytes bytes (discarding the rest of
the keystream), and still advances the counter by 1; calling it with
numBytes >= 64 is a misuse and fails with InvalidPartialLength (modelled as
none). -/
def Cypher.processBytes (c : Cypher) (input : List Nat) (numBytes : Nat) :
    Option (List Nat × Cypher) :=
  if Cypher.BLOCK_SIZE ≤ numBytes then none
  else some (List.zipWith Nat.xor (input.take numBytes)
      (keystreamBlock c.key c.nonce c.counter),
    { key := c.key, nonce := c.nonce, counter := c.counter + 1 })

/-! ## The program model, translated from Source/Main.cpp -/

/-- Helper constant NUM_OF_BLOCKS_PER_CHUNK from Main.cpp. -/
def NUM_OF_BLOCKS_PER_CHUNK : Nat := 8192

/-- Helper constant IV_OFFSET = Cypher::KEY_SIZE from Main.cpp. -/
def IV_OFFSET : Nat := Cypher.KEY_SIZE

/-- Program::KEY_SIZE = Cypher::KEY_SIZE + Cypher::IV_SIZE from Main.cpp. -/
def Program.KEY_SIZE : Nat := Cypher.KEY_SIZE + Cypher.IV_SIZE

/-- chunkSize = NUM_OF_BLOCKS_PER_CHUNK * Cypher::BLOCK_SIZE from
Program::execute. -/
def chunkSize : Nat := NUM_OF_BLOCKS_PER_CHUNK * Cypher.BLOCK_SIZE

/-- numChunks = fileSize / chunkSize from Program::execute. -/
def numChunks (fileSize : Nat) : Nat := fileSize / chunkSize

/-- remainderSize = fileSize % chunkSize from Program::execute. -/
def remainderSize (fileSize : Nat) : Nat := fileSize % chunkSize

/-- The hex-digit value of one ASCII character, translated from the three
range tests in Program::readByte; none when the character is not a hex
digit. -/
def digitValue (c : Nat) : Option Nat :=
  if 48 ≤ c ∧ c ≤ 57 then some (c - 48)          -- c in 0..9
  else if 65 ≤ c ∧ c ≤ 70 then some (c - 65 + 10) -- c in A..F
  else if 97 ≤ c ∧ c ≤ 102 then some (c - 97 + 10) -- c in a..f
  else none

/-- Program::readByte: decodes two hex characters into one byte,
byte |= value << (4 - i*4) for i = 0, 1. -/
def readByte (c0 c1 : Nat) : Option Nat :=
  match digitValue c0, digitValue c1 with
  | some v0, some v1 => some ((v0 <<< 4) ||| (v1 <<< 0))
  | _, _ => none

/-- The pairwise decoding loop of Program::readKeyFromString (i += 2,
readByte at positions i, i+1 into byte i/2); only reached for even-length
strings. -/
def decodePairs : List Nat → Option (List Nat)
  | [] => some []
  | [_] => none
  | c0 :: c1 :: rest =>
    match readByte c0 c1, decodePairs rest with
    | some b, some bs => some (b :: bs)
    | _, _ => none

/-- Program::readKeyFromString: fails unless the string length is exactly
2 * KEY_SIZE = 80, then decodes the hex pairs into the 40-byte key buffer. -/
def readKeyFromString (s : List Nat) : Option (List Nat) :=
  if s.length ≠ 2 * Program.KEY_SIZE then none
  else decodePairs s

/-- ASCII for the string "-p". -/
def pStr : List Nat := [45, 112]

/-- ASCII for the string "-h". -/
def hStr : List Nat := [45, 104]

/-- Result of the argument-scanning loop in Program::initialize. -/
inductive ScanResult where
  | help : ScanResult
  | params (inp out key : List Nat) : ScanResult
  | nothing : ScanResult
  deriving DecidableEq, Repr

/-- What the "-p" branch of the scanning loop captures: exactly the three
following arguments when argc - i - 1 = 3, otherwise it breaks with nothing
captured. -/
def scanParams : List (List Nat) → ScanResult
  | [inp, out, key] => .params inp out key
  | _ => .nothing

/-- The scanning loop of Program::initialize: walks the arguments; the
first "-p" captures via scanParams; "-h" returns help. -/
def argScan : List (List Nat) → ScanResult
  | [] => .nothing
  | a :: rest =>
    if a = pStr then scanParams rest
    else if a = hStr then .help
    else argScan rest

/-- Outcome of Program::initialize. -/
inductive InitResult where
  | help : InitResult
  | ok (inp out : List Nat) (key40 : List Nat) : InitResult
  | fail : InitResult
  deriving DecidableEq, Repr

/-- The validation checks Program::initialize performs after its scanning
loop: input file name nonempty, output file name nonempty, the two
distinct, key string nonempty and well-formed hex; on success it carries
the decoded 40-byte buffer. -/
def initOfScan : ScanResult → InitResult
  | .help => .help
  | .nothing => .fail
  | .params inp out key =>
    if inp = [] then .fail
    else if out = [] then .fail
    else if inp = out then .fail
    else if key = [] then .fail
    else
      match readKeyFromString key with
      | some key40 => .ok inp out key40
      | none => .fail

/-- Program::initialize: the scanning loop followed by the validation
checks. -/
def Program.init (argv : List (List Nat)) : InitResult :=
  initOfScan (argScan argv)

/-- Observable events of Program::execute, in program order. -/
inductive Event where
  | fileOpenIn : Event
  | fileOpenOut : Event
  | engineConstructed : Event
  | engineSetIv : Event
  | fileRead (numBytes : Nat) : Event
  | engineBlocks (numBlocks : Nat) : Event
  | engineBytes (numBytes : Nat) : Event
  | fileWrite (numBytes : Nat) : Event
  deriving DecidableEq, Repr

/-- Events of one pass of the full-chunk loop in Program::execute: read a
chunk, processBlocks on NUM_OF_BLOCKS_PER_CHUNK blocks, write the chunk. -/
def chunkLoopEvents : Nat → List Event
  | 0 => []
  | k + 1 =>
    .fileRead chunkSize :: .engineBlocks NUM_OF_BLOCKS_PER_CHUNK ::
      .fileWrite chunkSize :: chunkLoopEvents k

/-- The event trace of Program::execute in the non-help case: open both
files, construct the engine, set the IV, run the chunk loop, then handle a
nonzero remainder with one processBytes call. -/
def executeEvents (fileSize : Nat) : List Event :=
  .fileOpenIn :: .fileOpenOut :: .engineConstructed :: .engineSetIv ::
    (chunkLoopEvents (numChunks fileSize) ++
      (if remainderSize fileSize ≠ 0 then
        [.fileRead (remainderSize fileSize),
         .engineBytes (remainderSize fileSize),
         .fileWrite (remainderSize fileSize)]
      else []))

/-- Whether an event is a call into the Cypher engine's processing
operations. -/
def Event.isEngineCall : Event → Bool
  | .engineBlocks _ => true
  | .engineBytes _ => true
  | _ => false

/-- The subsequence of engine-processing calls made by Program::execute. -/
def engineTrace (fileSize : Nat) : List Event :=
  (executeEvents fileSize).filter Event.isEngineCall

/-- The exit code and event trace of main: exit code 1 with no events when
initialize fails, exit code 0 with no file or engine events in help mode,
and otherwise the execute trace. -/
def mainEvents (argv : List (List Nat)) (fileSize : Nat) : Nat × List Event :=
  match Program.init argv with
  | .fail => (1, [])
  | .help => (0, [])
  | .ok _ _ _ => (0, executeEvents fileSize)

/-- The engine as constructed by Program::execute: Cypher cypher(key_)
followed by cypher.setIv(&key_[IV_OFFSET]). -/
def initialCypher (key40 : List Nat) : Cypher :=
  (Cypher.fromKey (key40.take Cypher.KEY_SIZE)).setIv
    ((key40.drop IV_OFFSET).take Cypher.IV_SIZE)

/-- The full-chunk loop of Program::execute acting on the file contents:
each pass takes one chunkSize-byte chunk, processes it with
NUM_OF_BLOCKS_PER_CHUNK blocks, and records the written chunk. -/
def processFullChunksList (c : Cypher) (data : List Nat) :
    Nat → List (List Nat) × Cypher
  | 0 => ([], c)
  | k + 1 =>
    let r := c.processBlocks (data.take chunkSize) NUM_OF_BLOCKS_PER_CHUNK
    let rest := processFullChunksList r.2 (data.drop chunkSize) k
    (r.1 :: rest.1, rest.2)

/-- The list of chunks written by Program::execute for given decoded key
buffer and file contents: the full-chunk loop followed by the remainder
handled by one processBytes call; none when the engine rejects the
remainder length. -/
def executeWrites (key40 : List Nat) (data : List Nat) :
    Option (List (List Nat)) :=
  let c := initialCypher key40
  let n := numChunks data.length
  let rem := remainderSize data.length
  let r := processFullChunksList c data n
  if rem = 0 then some r.1
  else
    (r.2.processBytes (data.drop (chunkSize * n)) rem).map
      fun s => r.1 ++ [s.1]

/-- The output file contents produced by Program::execute. -/
def executeProcess (key40 : List Nat) (data : List Nat) : Option (List Nat) :=
  (executeWrites key40 data).map List.flatten

/-- The sequence of reads Program::execute performs on the input file:
numChunks reads of chunkSize bytes, then one read of the remainder when it
is nonzero. -/
def readChunksLoop : Nat → List Nat → List (List Nat)
  | 0, _ => []
  | k + 1, d => d.take chunkSize :: readChunksLoop k (d.drop chunkSize)

/-- All chunks read from the input file, in order. -/
def readSequence (data : List Nat) : List (List Nat) :=
  readChunksLoop (numChunks data.length) data ++
    (if remainderSize data.length ≠ 0 then
      [data.drop (chunkSize * numChunks data.length)] else [])

/-! ## Spec-level streaming operations (for the algebraic claims) -/

/-- Modelled from the spec: processing one chunk the way the streaming
collaborator prescribes -- processFullBlocks on the whole 64-byte groups of
the chunk, then processPartialBlock once on the final sub-64-byte remainder
when it is nonzero. -/
def processOneChunk (c : Cypher) (ch : List Nat) :
    Option (List Nat × Cypher) :=
  let nb := ch.length / Cypher.BLOCK_SIZE
  let rem := ch.length % Cypher.BLOCK_SIZE
  let r := c.processBlocks ch nb
  if rem = 0 then some r
  else
    (r.2.processBytes (ch.drop (Cypher.BLOCK_SIZE * nb)) rem).map
      fun s => (r.1 ++ s.1, s.2)

/-- Modelled from the spec: processing a partition of a message chunk by
chunk, in order, against one engine instance, threading the engine state. -/
def processChunkSeq (c : Cypher) : List (List Nat) → Option (List Nat × Cypher)
  | [] => some ([], c)
  | ch :: rest =>
    (processOneChunk c ch).bind fun r =>
      (processChunkSeq r.2 rest).map fun r2 => (r.1 ++ r2.1, r2.2)

/-- Modelled from the spec: the whole-message transform -- an engine built
from (key, nonce) with counter 0 processes the message as a single chunk
(full blocks, then the sub-64-byte remainder). -/
def transformMessage (key nonce : List Nat) (m : List Nat) : List Nat :=
  (((processOneChunk { key := key, nonce := nonce, counter := 0 } m).map
    Prod.fst).getD [])

/-- The concatenation of nb consecutive keystream blocks starting at a given
counter value. -/
def ksBlocks (key nonce : List Nat) (counter : Nat) : Nat → List Nat
  | 0 => []
  | nb + 1 => keystreamBlock key nonce counter ++ ksBlocks key nonce (counter + 1) nb

/-- The first len bytes of keystream starting at a given counter value:
whole blocks followed by a prefix of one more block. -/
def ksFor (key nonce : List Nat) (counter len : Nat) : List Nat :=
  ksBlocks key nonce counter (len / Cypher.BLOCK_SIZE) ++
    (keystreamBlock key nonce (counter + len / Cypher.BLOCK_SIZE)).take
      (len % Cypher.BLOCK_SIZE)

/-- The number of counter values consumed when processing len bytes as full
blocks plus an optional partial block. -/
def blocksFor (len : Nat) : Nat :=
  len / Cypher.BLOCK_SIZE + (if len % Cypher.BLOCK_SIZE = 0 then 0 else 1)

/-! ## The acceptance conditions named by the spec claims (for comparison
with Program.init) -/

/-- The help clause: some argument "-h" occurs before any "-p". -/
def helpCond (argv : List (List Nat)) : Prop :=
  ∃ pre post, argv = pre ++ hStr :: post ∧ pStr ∉ pre

/-- The parameter clause exactly as the claim words it: some argument "-p"
is followed by exactly three further arguments -- a non-empty input file
name, a distinct non-empty output file name, and a valid 80-character hex
key string. -/
def pCondClaim (argv : List (List Nat)) : Prop :=
  ∃ pre inp out key key40,
    argv = pre ++ pStr :: [inp, out, key] ∧
    inp ≠ [] ∧ out ≠ [] ∧ inp ≠ out ∧ readKeyFromString key = some key40

/-- The amended parameter clause: the first argument equal to "-p", with no
"-h" before it, is followed by exactly three further arguments -- a
non-empty input file name, a distinct non-empty output file name, and a
valid 80-character hex key string. -/
def pCondAmended (argv : List (List Nat)) : Prop :=
  ∃ pre inp out key key40,
    argv = pre ++ pStr :: [inp, out, key] ∧
    pStr ∉ pre ∧ hStr ∉ pre ∧
    inp ≠ [] ∧ out ≠ [] ∧ inp ≠ out ∧ readKeyFromString key = some key40

/-- The three-argument tail required after "-p": non-empty input name,
distinct non-empty output name, and a hex key string that decodes. -/
def pParams (t : List (List Nat)) : Prop :=
  ∃ inp out key key40,
    t = [inp, out, key] ∧ inp ≠ [] ∧ out ≠ [] ∧ inp ≠ out ∧
      readKeyFromString key = some key40

/-- A character (ASCII code) in the class [0-9A-Fa-f], as the spec words
it. -/
def isHexDigit (c : Nat) : Prop :=
  (48 ≤ c ∧ c ≤ 57) ∨ (65 ≤ c ∧ c ≤ 70) ∨ (97 ≤ c ∧ c ≤ 102)

instance (c : Nat) : Decidable (isHexDigit c) := by
  unfold isHexDigit
  infer_instance

/-- The digit-value function exactly as the claim words it: characters
0..9 map to 0-9, and both A..F and a..f map to 10-15. -/
def claimDigitValue (c : Nat) : Nat :=
  if 48 ≤ c ∧ c ≤ 57 then c - 48
  else if 65 ≤ c ∧ c ≤ 70 then c - 65 + 10
  else if 97 ≤ c ∧ c ≤ 102 then c - 97 + 10
  else 0

/-- Uppercasing one ASCII character: a..z maps to A..Z. -/
def toUpperAscii (c : Nat) : Nat :=
  if 97 ≤ c ∧ c ≤ 122 then c - 32 else c

/-- Whether an event is a call of the byte-level partial operation. -/
def Event.isBytesCall : Event → Bool
  | .engineBytes _ => true
  | _ => false

/-! ## List and xor helper lemmas -/

theorem zipWith_append_of_le {α β γ : Type} (f : α → β → γ) :
    ∀ (l : List α) (l' r : List β), l.length ≤ l'.length →
      List.zipWith f l (l' ++ r) = List.zipWith f l l'
  | [], _, _, _ => by simp
  | _ :: _, [], _, h => by simp at h
  | a :: l, b :: l', r, h => by
    simpa using zipWith_append_of_le f l l' r (by simpa using h)

theorem zipWith_take_len {α β γ : Type} (f : α → β → γ) :
    ∀ (l : List α) (l' : List β),
      List.zipWith f l (l'.take l.length) = List.zipWith f l l'
  | [], _ => by simp
  | _ :: _, [] => by simp
  | a :: l, b :: l' => by simpa using zipWith_take_len f l l'

theorem zip_xor_cancel :
    ∀ (m ks : List Nat), m.length ≤ ks.length →
      List.zipWith Nat.xor (List.zipWith Nat.xor m ks) ks = m
  | [], _, _ => by simp
  | _ :: _, [], h => by simp at h
  | a :: m, b :: ks, h => by
    simp only [List.zipWith_cons_cons, List.cons.injEq]
    exact ⟨Nat.xor_cancel_right b a, zip_xor_cancel m ks (by simpa using h)⟩

/-! ## Keystream length lemmas -/

theorem wordToBytes_length (w : Nat) : (wordToBytes w).length = 4 := rfl

theorem flatten_map_wordToBytes_length :
    ∀ ws : List Nat, ((ws.map wordToBytes).flatten).length = 4 * ws.length
  | [] => by simp
  | w :: ws => by
    simp [flatten_map_wordToBytes_length ws, wordToBytes]
    omega

theorem buildState_length (key nonce : List Nat) (counter : Nat) :
    (buildState key nonce counter).length = 16 := rfl

theorem doubleRound_length (s : List Nat) : (doubleRound s).length = s.length := by
  unfold doubleRound
  split
  · rfl
  · rfl

theorem doubleRounds_length :
    ∀ (k : Nat) (s : List Nat), (doubleRounds k s).length = s.length
  | 0, _ => rfl
  | k + 1, s => by
    rw [doubleRounds, doubleRounds_length k, doubleRound_length]

theorem salsa20Core_length {st : List Nat} (h : st.length = 16) :
    (salsa20Core st).length = 16 := by
  simp [salsa20Core, doubleRounds_length 10, h]

theorem keystreamBlock_length (key nonce : List Nat) (counter : Nat) :
    (keystreamBlock key nonce counter).length = 64 := by
  rw [keystreamBlock, flatten_map_wordToBytes_length,
    salsa20Core_length (buildState_length key nonce counter)]

theorem ksBlocks_length (key nonce : List Nat) :
    ∀ (nb counter : Nat), (ksBlocks key nonce counter nb).length = 64 * nb
  | 0, _ => rfl
  | nb + 1, counter => by
    simp [ksBlocks, keystreamBlock_length, ksBlocks_length key nonce nb]
    omega

theorem ksFor_length (key nonce : List Nat) (counter len : Nat) :
    (ksFor key nonce counter len).length = len := by
  have hmod : len % 64 < 64 := Nat.mod_lt _ (by omega)
  have hdm := Nat.div_add_mod len 64
  simp [ksFor, ksBlocks_length, keystreamBlock_length, Cypher.BLOCK_SIZE]
  omega

/-! ## Engine normal-form lemmas: processing is keystream xor -/

theorem ksBlocks_append (key nonce : List Nat) :
    ∀ (a : Nat) (counter b : Nat),
      ksBlocks key nonce counter (a + b) =
        ksBlocks key nonce counter a ++ ksBlocks key nonce (counter + a) b
  | 0, counter, b => by simp [ksBlocks]
  | a + 1, counter, b => by
    have h : a + 1 + b = (a + b) + 1 := by omega
    rw [h, ksBlocks, ksBlocks, ksBlocks_append key nonce a (counter + 1) b,
      List.append_assoc]
    ring_nf

theorem processBlocks_snd :
    ∀ (nb : Nat) (c : Cypher) (m : List Nat),
      (c.processBlocks m nb).2 =
        { key := c.key, nonce := c.nonce, counter := c.counter + nb }
  | 0, c, m => by simp [Cypher.processBlocks]
  | nb + 1, c, m => by
    simp only [Cypher.processBlocks]
    rw [processBlocks_snd nb]
    simp only [Cypher.mk.injEq]
    refine ⟨?_, ?_, ?_⟩ <;> first | trivial | omega

theorem processBlocks_fst :
    ∀ (nb : Nat) (c : Cypher) (m : List Nat),
      (c.processBlocks m nb).1 =
        List.zipWith Nat.xor (m.take (64 * nb))
          (ksBlocks c.key c.nonce c.counter nb)
  | 0, c, m => by simp [Cypher.processBlocks, ksBlocks]
  | nb + 1, c, m => by
    simp only [Cypher.processBlocks, Cypher.BLOCK_SIZE]
    rw [processBlocks_fst nb]
    simp only [ksBlocks]
    rw [show 64 * (nb + 1) = 64 + 64 * nb by ring, List.take_add]
    by_cases hm : 64 ≤ m.length
    · rw [List.zipWith_append _ _ _ _ _
        (by rw [List.length_take, keystreamBlock_length]; omega)]
    · have hdrop : m.drop 64 = [] := List.drop_eq_nil_iff.mpr (by omega)
      have htake : m.take 64 = m := List.take_of_length_le (by omega)
      rw [hdrop, htake, List.take_nil, List.zipWith_nil_left, List.append_nil,
        List.append_nil,
        zipWith_append_of_le Nat.xor m _ _ (by rw [keystreamBlock_length]; omega)]

theorem processBlocks_spec (nb : Nat) (c : Cypher) (m : List Nat) :
    c.processBlocks m nb =
      (List.zipWith Nat.xor (m.take (64 * nb))
        (ksBlocks c.key c.nonce c.counter nb),
       { key := c.key, nonce := c.nonce, counter := c.counter + nb }) :=
  Prod.ext (processBlocks_fst nb c m) (processBlocks_snd nb c m)

theorem processBytes_none {c : Cypher} {input : List Nat} {numBytes : Nat}
    (h : 64 ≤ numBytes) : c.processBytes input numBytes = none := by
  simp [Cypher.processBytes, Cypher.BLOCK_SIZE, h]

theorem processBytes_some {c : Cypher} {input : List Nat} {numBytes : Nat}
    (h : numBytes < 64) :
    c.processBytes input numBytes =
      some (List.zipWith Nat.xor (input.take numBytes)
              (keystreamBlock c.key c.nonce c.counter),
            { key := c.key, nonce := c.nonce, counter := c.counter + 1 }) := by
  simp [Cypher.processBytes, Cypher.BLOCK_SIZE, Nat.not_le.mpr h]

theorem zipWith_xor_split (ch ksA ksB : List Nat) (n : Nat)
    (h : ksA.length = n) (hn : n ≤ ch.length) :
    List.zipWith Nat.xor ch (ksA ++ ksB) =
      List.zipWith Nat.xor (ch.take n) ksA ++
        List.zipWith Nat.xor (ch.drop n) ksB := by
  conv_lhs => rw [← List.take_append_drop n ch]
  rw [List.zipWith_append _ _ _ _ _ (by rw [List.length_take]; omega)]

theorem processOneChunk_spec (c : Cypher) (ch : List Nat) :
    processOneChunk c ch =
      some (List.zipWith Nat.xor ch (ksFor c.key c.nonce c.counter ch.length),
            { key := c.key, nonce := c.nonce,
              counter := c.counter + blocksFor ch.length }) := by
  have hdm := Nat.div_add_mod ch.length 64
  have hmod : ch.length % 64 < 64 := Nat.mod_lt _ (by omega)
  have hsplit := zipWith_xor_split ch
    (ksBlocks c.key c.nonce c.counter (ch.length / 64))
    ((keystreamBlock c.key c.nonce (c.counter + ch.length / 64)).take
      (ch.length % 64))
    (64 * (ch.length / 64)) (ksBlocks_length _ _ _ _) (by omega)
  simp only [processOneChunk, ksFor, blocksFor, Cypher.BLOCK_SIZE]
  rw [processBlocks_spec, hsplit]
  by_cases h0 : ch.length % 64 = 0
  · have hlen : 64 * (ch.length / 64) = ch.length := by omega
    simp only [h0, if_pos, List.take_zero, List.zipWith_nil_right,
      List.append_nil, hlen, List.take_length]
    simp
  · simp only [if_neg h0]
    rw [processBytes_some hmod]
    simp only [Option.map_some']
    have hdlen : (ch.drop (64 * (ch.length / 64))).length = ch.length % 64 := by
      rw [List.length_drop]
      omega
    have htk : (ch.drop (64 * (ch.length / 64))).take (ch.length % 64) =
        ch.drop (64 * (ch.length / 64)) :=
      List.take_of_length_le (by omega)
    simp only [htk]
    rw [← zipWith_take_len Nat.xor (ch.drop (64 * (ch.length / 64))), hdlen]
    simp only [Prod.mk.injEq, Option.some.injEq, Cypher.mk.injEq]
    refine ⟨?_, ?_, ?_, ?_⟩ <;> first | omega | trivial

/-! ## Chunk invariance and the message transform -/

theorem ksFor_split (key nonce : List Nat) (counter : Nat) {L1 : Nat}
    (L2 : Nat) (h : 64 ∣ L1) :
    ksFor key nonce counter (L1 + L2) =
      ksBlocks key nonce counter (L1 / 64) ++
        ksFor key nonce (counter + L1 / 64) L2 := by
  obtain ⟨q, hq⟩ := h
  subst hq
  have hdiv : (64 * q + L2) / 64 = q + L2 / 64 := by
    rw [Nat.add_comm, Nat.add_mul_div_left _ _ (by omega : (0:Nat) < 64)]
    omega
  have hmod : (64 * q + L2) % 64 = L2 % 64 := by
    rw [Nat.add_comm, Nat.add_mul_mod_self_left]
  have hq64 : (64 * q) / 64 = q := by omega
  simp only [ksFor, Cypher.BLOCK_SIZE, hdiv, hmod, hq64]
  rw [ksBlocks_append key nonce q counter (L2 / 64), List.append_assoc]
  have : counter + (q + L2 / 64) = counter + q + L2 / 64 := by omega
  rw [this]

theorem processChunkSeq_spec :
    ∀ (chunks : List (List Nat)) (c : Cypher),
      (∀ ch ∈ chunks.dropLast, 64 ∣ ch.length) →
      processChunkSeq c chunks = processOneChunk c chunks.flatten
  | [], c, _ => by
    rw [processChunkSeq, List.flatten_nil, processOneChunk_spec]
    simp [blocksFor, ksFor, ksBlocks]
  | [ch], c, _ => by
    rw [processChunkSeq, processOneChunk_spec]
    simp only [Option.some_bind, processChunkSeq, Option.map_some',
      List.flatten_cons, List.flatten_nil, List.append_nil,
      processOneChunk_spec]
  | ch :: ch2 :: rest, c, hdiv => by
    have hch : 64 ∣ ch.length := by
      apply hdiv ch
      rw [List.dropLast_cons₂]
      exact List.mem_cons_self ch _
    have htail : ∀ x ∈ (ch2 :: rest).dropLast, 64 ∣ x.length := by
      intro x hx
      apply hdiv x
      rw [List.dropLast_cons₂]
      exact List.mem_cons_of_mem ch hx
    have IH := processChunkSeq_spec (ch2 :: rest)
      { key := c.key, nonce := c.nonce, counter := c.counter + blocksFor ch.length }
      htail
    obtain ⟨q, hq⟩ := hch
    set F := (ch2 :: rest).flatten with hF
    have hq0 : ch.length % 64 = 0 := by omega
    have hqd : ch.length / 64 = q := by omega
    have hbf : blocksFor ch.length = q := by
      simp [blocksFor, Cypher.BLOCK_SIZE, hq0, hqd]
    have hflat : (ch :: ch2 :: rest).flatten = ch ++ F := by
      simp [hF]
    rw [processChunkSeq, processOneChunk_spec, Option.some_bind, IH,
      processOneChunk_spec, Option.map_some', hflat, processOneChunk_spec]
    have hlen : (ch ++ F).length = ch.length + F.length := by
      simp
    rw [hlen, ksFor_split c.key c.nonce c.counter F.length (by omega), hqd]
    rw [zipWith_xor_split (ch ++ F) _ _ ch.length
      (by rw [ksBlocks_length]; omega) (by simp)]
    rw [List.take_left, List.drop_left]
    have hksch : ksFor c.key c.nonce c.counter ch.length =
        ksBlocks c.key c.nonce c.counter q ++ [] := by
      simp [ksFor, Cypher.BLOCK_SIZE, hq0, hqd]
    have hbig : blocksFor (ch.length + F.length) = q + blocksFor F.length := by
      have h1 : (ch.length + F.length) / 64 = q + F.length / 64 := by omega
      have h2 : (ch.length + F.length) % 64 = F.length % 64 := by omega
      simp only [blocksFor, Cypher.BLOCK_SIZE, h1, h2]
      by_cases hz : F.length % 64 = 0 <;> simp [hz] <;> omega
    rw [hksch, List.append_nil, hbf, hbig]
    simp only [Option.some.injEq, Prod.mk.injEq, Cypher.mk.injEq]
    refine ⟨?_, ?_, ?_, ?_⟩ <;> first | omega | trivial

/-- The whole-message transform is xor with a keystream that depends only on
the key, the nonce, and the message length. -/
theorem transformMessage_eq (key nonce m : List Nat) :
    transformMessage key nonce m =
      List.zipWith Nat.xor m (ksFor key nonce 0 m.length) := by
  rw [transformMessage, processOneChunk_spec]
  simp only [Option.map_some', Option.getD_some]

theorem transformMessage_length (key nonce m : List Nat) :
    (transformMessage key nonce m).length = m.length := by
  rw [transformMessage_eq, List.length_zipWith, ksFor_length]
  omega

theorem transformMessage_involution (key nonce m : List Nat) :
    transformMessage key nonce (transformMessage key nonce m) = m := by
  rw [transformMessage_eq (m := transformMessage key nonce m),
    transformMessage_length, transformMessage_eq]
  exact zip_xor_cancel m _ (by rw [ksFor_length])

/-! ## The streaming loop of Program::execute -/

theorem chunkSize_eq : chunkSize = 524288 := rfl

theorem processFullChunksList_snd :
    ∀ (k : Nat) (c : Cypher) (data : List Nat),
      (processFullChunksList c data k).2 =
        { key := c.key, nonce := c.nonce,
          counter := c.counter + NUM_OF_BLOCKS_PER_CHUNK * k }
  | 0, c, data => by simp [processFullChunksList]
  | k + 1, c, data => by
    simp only [processFullChunksList]
    rw [processFullChunksList_snd k, processBlocks_snd]
    simp only [Cypher.mk.injEq, NUM_OF_BLOCKS_PER_CHUNK]
    refine ⟨?_, ?_, ?_⟩ <;> first | omega | trivial

theorem processFullChunksList_flatten :
    ∀ (k : Nat) (c : Cypher) (data : List Nat),
      chunkSize * k ≤ data.length →
      (processFullChunksList c data k).1.flatten =
        List.zipWith Nat.xor (data.take (chunkSize * k))
          (ksBlocks c.key c.nonce c.counter (NUM_OF_BLOCKS_PER_CHUNK * k))
  | 0, c, data, _ => by
    simp [processFullChunksList, ksBlocks]
  | k + 1, c, data, h => by
    have hcs := chunkSize_eq
    have hdl : (data.drop chunkSize).length = data.length - chunkSize := by
      simp
    have h' : 524288 * (k + 1) ≤ data.length := by rw [hcs] at h; exact h
    have hstep : chunkSize * k ≤ (data.drop chunkSize).length := by
      rw [hdl, hcs]
      omega
    simp only [processFullChunksList, List.flatten_cons]
    rw [processBlocks_fst, processBlocks_snd,
      processFullChunksList_flatten k _ (data.drop chunkSize) hstep]
    have h1 : (64 : Nat) * NUM_OF_BLOCKS_PER_CHUNK = chunkSize := rfl
    have h2 : chunkSize * (k + 1) = chunkSize + chunkSize * k := by ring
    have h3 : NUM_OF_BLOCKS_PER_CHUNK * (k + 1) =
        NUM_OF_BLOCKS_PER_CHUNK + NUM_OF_BLOCKS_PER_CHUNK * k := by ring
    rw [h1, List.take_take, Nat.min_self, h2, h3, List.take_add,
      ksBlocks_append,
      List.zipWith_append _ _ _ _ _
        (by rw [List.length_take, ksBlocks_length, h1, hcs]; omega)]

theorem processFullChunksList_map_length :
    ∀ (k : Nat) (c : Cypher) (data : List Nat),
      chunkSize * k ≤ data.length →
      (processFullChunksList c data k).1.map List.length =
        List.replicate k chunkSize
  | 0, _, _, _ => rfl
  | k + 1, c, data, h => by
    have hcs := chunkSize_eq
    have hdl : (data.drop chunkSize).length = data.length - chunkSize := by
      simp
    have h' : 524288 * (k + 1) ≤ data.length := by rw [hcs] at h; exact h
    have hstep : chunkSize * k ≤ (data.drop chunkSize).length := by
      rw [hdl, hcs]
      omega
    simp only [processFullChunksList, List.map_cons]
    rw [processBlocks_fst,
      processFullChunksList_map_length k _ (data.drop chunkSize) hstep,
      List.replicate_succ]
    have h1 : (64 : Nat) * NUM_OF_BLOCKS_PER_CHUNK = chunkSize := rfl
    rw [h1, List.take_take, Nat.min_self]
    simp only [List.cons.injEq]
    refine ⟨?_, trivial⟩
    rw [List.length_zipWith, List.length_take, ksBlocks_length, h1, hcs]
    omega

theorem executeProcess_spec (key40 data : List Nat) :
    executeProcess key40 data =
      if remainderSize data.length < 64 then
        some (List.zipWith Nat.xor data
          (ksFor (initialCypher key40).key (initialCypher key40).nonce 0
            data.length))
      else none := by
  have hdm : 524288 * (data.length / 524288) + data.length % 524288 =
      data.length := Nat.div_add_mod data.length 524288
  have hnc : numChunks data.length = data.length / 524288 := rfl
  have hrs : remainderSize data.length = data.length % 524288 := rfl
  have hle : chunkSize * numChunks data.length ≤ data.length := by
    rw [chunkSize_eq, hnc]
    omega
  have hcnt : (initialCypher key40).counter = 0 := rfl
  simp only [executeProcess, executeWrites]
  by_cases h0 : remainderSize data.length = 0
  · have h0' : data.length % 524288 = 0 := by rw [← hrs]; exact h0
    rw [if_pos h0, if_pos (by rw [hrs, h0']; omega)]
    simp only [Option.map_some']
    rw [processFullChunksList_flatten _ _ _ hle]
    have hL : chunkSize * numChunks data.length = data.length := by
      rw [chunkSize_eq, hnc]
      omega
    have hdiv : data.length / 64 =
        NUM_OF_BLOCKS_PER_CHUNK * numChunks data.length := by
      simp only [NUM_OF_BLOCKS_PER_CHUNK, hnc]
      omega
    have hmod : data.length % 64 = 0 := by omega
    rw [ksFor, Cypher.BLOCK_SIZE, hdiv, hmod, List.take_zero, List.append_nil,
      hL, List.take_length, hcnt]
  · have h0' : data.length % 524288 ≠ 0 := by rw [← hrs]; exact h0
    rw [if_neg h0]
    rw [processFullChunksList_snd, hcnt]
    by_cases h64 : remainderSize data.length < 64
    · have h64' : data.length % 524288 < 64 := by rw [← hrs]; exact h64
      rw [if_pos h64, processBytes_some (by rw [hrs]; exact h64')]
      simp only [Option.map_some']
      rw [List.flatten_append, List.flatten_cons, List.flatten_nil,
        List.append_nil]
      rw [processFullChunksList_flatten _ _ _ hle]
      have hdrop : (data.drop (chunkSize * numChunks data.length)).length =
          remainderSize data.length := by
        rw [List.length_drop, chunkSize_eq, hnc, hrs]
        omega
      have hdiv : data.length / 64 =
          NUM_OF_BLOCKS_PER_CHUNK * numChunks data.length := by
        simp only [NUM_OF_BLOCKS_PER_CHUNK, hnc]
        omega
      have hmod : data.length % 64 = remainderSize data.length := by
        rw [hrs]
        omega
      rw [ksFor, Cypher.BLOCK_SIZE, hdiv, hmod, Nat.zero_add]
      rw [zipWith_xor_split data _ _ (chunkSize * numChunks data.length)
        (by rw [ksBlocks_length, chunkSize_eq]
            simp only [NUM_OF_BLOCKS_PER_CHUNK]
            ring)
        hle]
      rw [List.take_of_length_le (le_of_eq hdrop),
        ← zipWith_take_len Nat.xor (data.drop (chunkSize * numChunks data.length)),
        hdrop, hcnt]
    · rw [if_neg h64, processBytes_none (by rw [hrs]; rw [hrs] at h64; omega)]
      simp

theorem executeProcess_length {key40 data out : List Nat}
    (h : executeProcess key40 data = some out) : out.length = data.length := by
  rw [executeProcess_spec] at h
  by_cases h64 : remainderSize data.length < 64
  · rw [if_pos h64] at h
    cases h
    rw [List.length_zipWith, ksFor_length]
    omega
  · rw [if_neg h64] at h
    cases h

theorem executeProcess_involution {key40 data out : List Nat}
    (h : executeProcess key40 data = some out) :
    executeProcess key40 out = some data := by
  have hlen := executeProcess_length h
  rw [executeProcess_spec] at h
  by_cases h64 : remainderSize data.length < 64
  · rw [if_pos h64] at h
    cases h
    rw [executeProcess_spec, hlen, if_pos h64]
    rw [zip_xor_cancel data _ (by rw [ksFor_length])]
  · rw [if_neg h64] at h
    cases h

/-! ## The read sequence of Program::execute -/

theorem readChunksLoop_flatten :
    ∀ (k : Nat) (d : List Nat),
      (readChunksLoop k d).flatten = d.take (chunkSize * k)
  | 0, d => by simp [readChunksLoop]
  | k + 1, d => by
    simp only [readChunksLoop, List.flatten_cons,
      readChunksLoop_flatten k (d.drop chunkSize)]
    rw [show chunkSize * (k + 1) = chunkSize + chunkSize * k by ring,
      List.take_add]

theorem readChunksLoop_map_length :
    ∀ (k : Nat) (d : List Nat), chunkSize * k ≤ d.length →
      (readChunksLoop k d).map List.length = List.replicate k chunkSize
  | 0, _, _ => rfl
  | k + 1, d, h => by
    have hcs := chunkSize_eq
    have h' : 524288 * (k + 1) ≤ d.length := by rw [hcs] at h; exact h
    have hstep : chunkSize * k ≤ (d.drop chunkSize).length := by
      rw [List.length_drop, hcs]
      omega
    simp only [readChunksLoop, List.map_cons,
      readChunksLoop_map_length k (d.drop chunkSize) hstep,
      List.replicate_succ, List.cons.injEq]
    refine ⟨?_, trivial⟩
    rw [List.length_take, hcs]
    omega

theorem readSequence_flatten (data : List Nat) :
    (readSequence data).flatten = data := by
  have hdm : 524288 * (data.length / 524288) + data.length % 524288 =
      data.length := Nat.div_add_mod data.length 524288
  have hnc : numChunks data.length = data.length / 524288 := rfl
  have hrs : remainderSize data.length = data.length % 524288 := rfl
  rw [readSequence]
  by_cases h0 : remainderSize data.length = 0
  · rw [if_neg (by simpa using h0)]
    rw [List.append_nil, readChunksLoop_flatten]
    apply List.take_of_length_le
    rw [chunkSize_eq, hnc]
    rw [hrs] at h0
    omega
  · rw [if_pos h0, List.flatten_append, readChunksLoop_flatten,
      List.flatten_cons, List.flatten_nil, List.append_nil,
      List.take_append_drop]

theorem readSequence_map_length (data : List Nat) :
    (readSequence data).map List.length =
      List.replicate (numChunks data.length) chunkSize ++
        (if remainderSize data.length ≠ 0 then [remainderSize data.length]
         else []) := by
  have hdm : 524288 * (data.length / 524288) + data.length % 524288 =
      data.length := Nat.div_add_mod data.length 524288
  have hnc : numChunks data.length = data.length / 524288 := rfl
  have hrs : remainderSize data.length = data.length % 524288 := rfl
  have hle : chunkSize * numChunks data.length ≤ data.length := by
    rw [chunkSize_eq, hnc]
    omega
  rw [readSequence, List.map_append,
    readChunksLoop_map_length _ _ hle]
  by_cases h0 : remainderSize data.length = 0
  · rw [if_neg (by simpa using h0), if_neg (by simpa using h0)]
    rfl
  · rw [if_pos h0, if_pos h0, List.map_cons, List.map_nil, List.length_drop,
      chunkSize_eq, hnc, hrs]
    rw [hrs] at *
    congr 2
    omega

theorem executeWrites_map_length {key40 data : List Nat}
    {ws : List (List Nat)} (h : executeWrites key40 data = some ws) :
    ws.map List.length = (readSequence data).map List.length := by
  have hdm : 524288 * (data.length / 524288) + data.length % 524288 =
      data.length := Nat.div_add_mod data.length 524288
  have hnc : numChunks data.length = data.length / 524288 := rfl
  have hrs : remainderSize data.length = data.length % 524288 := rfl
  have hle : chunkSize * numChunks data.length ≤ data.length := by
    rw [chunkSize_eq, hnc]
    omega
  rw [readSequence_map_length]
  rw [executeWrites] at h
  by_cases h0 : remainderSize data.length = 0
  · rw [if_pos h0] at h
    cases h
    rw [processFullChunksList_map_length _ _ _ hle,
      if_neg (by simpa using h0), List.append_nil]
  · rw [if_neg h0] at h
    by_cases h64 : remainderSize data.length < 64
    · rw [processBytes_some (by simpa using h64), Option.map_some'] at h
      cases h
      rw [List.map_append, processFullChunksList_map_length _ _ _ hle,
        if_pos h0, List.map_cons, List.map_nil]
      congr 2
      rw [List.length_zipWith, List.length_take, List.length_drop,
        keystreamBlock_length, chunkSize_eq, hnc, hrs]
      rw [hrs] at h64
      omega
    · rw [processBytes_none (by simpa using Nat.not_lt.mp h64)] at h
      cases h

/-! ## The engine-call trace of Program::execute -/

theorem chunkLoopEvents_filter (k : Nat) :
    (chunkLoopEvents k).filter Event.isEngineCall =
      List.replicate k (Event.engineBlocks NUM_OF_BLOCKS_PER_CHUNK) := by
  induction k with
  | zero => rfl
  | succ k ih =>
    simp [chunkLoopEvents, List.filter, Event.isEngineCall, ih,
      List.replicate_succ]

theorem engineTrace_eq (fileSize : Nat) :
    engineTrace fileSize =
      List.replicate (numChunks fileSize)
        (Event.engineBlocks NUM_OF_BLOCKS_PER_CHUNK) ++
      (if remainderSize fileSize ≠ 0 then
        [Event.engineBytes (remainderSize fileSize)] else []) := by
  rw [engineTrace, executeEvents]
  by_cases h0 : remainderSize fileSize ≠ 0 <;>
    simp [h0, List.filter_append, chunkLoopEvents_filter, List.filter,
      Event.isEngineCall]

/-! ## Hex decoding lemmas -/

theorem digitValue_isSome_iff (c : Nat) :
    (digitValue c).isSome ↔ isHexDigit c := by
  unfold digitValue isHexDigit
  split_ifs with h1 h2 h3 <;> simp <;> omega

theorem digitValue_lt {c v : Nat} (h : digitValue c = some v) : v < 16 := by
  unfold digitValue at h
  split_ifs at h with h1 h2 h3 <;> cases h <;> omega

theorem digitValue_eq_claim {c v : Nat} (h : digitValue c = some v) :
    v = claimDigitValue c := by
  unfold digitValue at h
  unfold claimDigitValue
  split_ifs at h ⊢ <;> cases h <;> omega

theorem shiftOr_eq (v0 v1 : Nat) (h0 : v0 < 16) (h1 : v1 < 16) :
    (v0 <<< 4) ||| (v1 <<< 0) = 16 * v0 + v1 := by
  interval_cases v0 <;> interval_cases v1 <;> rfl

theorem readByte_isSome_iff (c0 c1 : Nat) :
    (readByte c0 c1).isSome ↔ isHexDigit c0 ∧ isHexDigit c1 := by
  rw [readByte, ← digitValue_isSome_iff, ← digitValue_isSome_iff]
  rcases h0 : digitValue c0 with _ | v0 <;>
    rcases h1 : digitValue c1 with _ | v1 <;> simp

theorem readByte_eq {c0 c1 b : Nat} (h : readByte c0 c1 = some b) :
    b = 16 * claimDigitValue c0 + claimDigitValue c1 := by
  rw [readByte] at h
  rcases h0 : digitValue c0 with _ | v0 <;>
    rcases h1 : digitValue c1 with _ | v1 <;> rw [h0, h1] at h <;> cases h
  rw [shiftOr_eq v0 v1 (digitValue_lt h0) (digitValue_lt h1),
    digitValue_eq_claim h0, digitValue_eq_claim h1]

set_option maxRecDepth 8000 in
theorem digitValue_toUpper (c : Nat) :
    digitValue (toUpperAscii c) = digitValue c := by
  unfold toUpperAscii
  by_cases hlow : 97 ≤ c ∧ c ≤ 122
  · rw [if_pos hlow]
    unfold digitValue
    split_ifs <;>
      first
        | rfl
        | (exfalso; omega)
  · rw [if_neg hlow]

theorem readByte_toUpper (c0 c1 : Nat) :
    readByte (toUpperAscii c0) (toUpperAscii c1) = readByte c0 c1 := by
  rw [readByte, readByte, digitValue_toUpper, digitValue_toUpper]

theorem decodePairs_isSome :
    ∀ (s : List Nat), s.length % 2 = 0 →
      ((decodePairs s).isSome ↔ ∀ c ∈ s, isHexDigit c)
  | [], _ => by simp [decodePairs]
  | [c], h => by simp at h
  | c0 :: c1 :: rest, h => by
    have IH := decodePairs_isSome rest
      (by simp only [List.length_cons] at h; omega)
    rw [decodePairs]
    rcases hb : readByte c0 c1 with _ | b
    · have := (readByte_isSome_iff c0 c1)
      rw [hb] at this
      simp only [Option.isSome_none, Bool.false_eq_true, false_iff,
        not_and] at this
      simp only [Option.isSome_none, Bool.false_eq_true, false_iff]
      intro hall
      by_cases hc0 : isHexDigit c0
      · exact this hc0 (hall c1 (by simp))
      · exact hc0 (hall c0 (by simp))
    · have hby := (readByte_isSome_iff c0 c1).mp (by rw [hb]; rfl)
      rcases hr : decodePairs rest with _ | bs
      · rw [hr] at IH
        simp only [Option.isSome_none, Bool.false_eq_true, false_iff] at IH
        simp only [Option.isSome_none, Bool.false_eq_true, false_iff]
        intro hall
        exact IH (fun c hc => hall c (by simp [hc]))
      · rw [hr] at IH
        simp only [Option.isSome_some, true_iff] at IH
        simp only [Option.isSome_some, true_iff]
        intro c hc
        simp only [List.mem_cons] at hc
        rcases hc with rfl | rfl | hc
        · exact hby.1
        · exact hby.2
        · exact IH c hc

theorem decodePairs_length :
    ∀ {s bs : List Nat}, decodePairs s = some bs → bs.length = s.length / 2
  | [], bs, h => by cases h; rfl
  | [c], bs, h => by cases h
  | c0 :: c1 :: rest, bs, h => by
    rw [decodePairs] at h
    rcases hb : readByte c0 c1 with _ | b <;> rw [hb] at h
    · cases h
    · rcases hr : decodePairs rest with _ | bs' <;> rw [hr] at h
      · cases h
      · cases h
        have := decodePairs_length hr
        simp only [List.length_cons, this]
        omega

theorem decodePairs_getElem :
    ∀ {s bs : List Nat}, decodePairs s = some bs →
      ∀ i, i < bs.length →
        bs.getD i 0 = 16 * claimDigitValue (s.getD (2 * i) 0) +
          claimDigitValue (s.getD (2 * i + 1) 0)
  | [], bs, h => by cases h; simp
  | [c], bs, h => by cases h
  | c0 :: c1 :: rest, bs, h => by
    rw [decodePairs] at h
    rcases hb : readByte c0 c1 with _ | b <;> rw [hb] at h
    · cases h
    · rcases hr : decodePairs rest with _ | bs' <;> rw [hr] at h
      · cases h
      · cases h
        intro i hi
        match i with
        | 0 =>
          simpa using readByte_eq hb
        | i + 1 =>
          have := decodePairs_getElem hr i (by simpa using hi)
          have h2 : 2 * (i + 1) = 2 * i + 1 + 1 := by omega
          simpa [h2] using this

theorem decodePairs_map_toUpper :
    ∀ (s : List Nat), decodePairs (s.map toUpperAscii) = decodePairs s
  | [] => rfl
  | [c] => rfl
  | c0 :: c1 :: rest => by
    simp only [List.map_cons, decodePairs, readByte_toUpper,
      decodePairs_map_toUpper rest]

theorem readKeyFromString_isSome_iff (s : List Nat) :
    (readKeyFromString s).isSome ↔
      s.length = 80 ∧ ∀ c ∈ s, isHexDigit c := by
  rw [readKeyFromString]
  by_cases hl : s.length = 2 * Program.KEY_SIZE
  · rw [if_neg (by simpa using hl)]
    have h80 : s.length = 80 := hl
    rw [decodePairs_isSome s (by omega)]
    simp [h80]
  · rw [if_pos (by simpa using hl)]
    have : s.length ≠ 80 := hl
    simp [this]

theorem readKeyFromString_some_length {s bs : List Nat}
    (h : readKeyFromString s = some bs) : s.length = 80 ∧ bs.length = 40 := by
  rw [readKeyFromString] at h
  by_cases hl : s.length = 2 * Program.KEY_SIZE
  · rw [if_neg (by simpa using hl)] at h
    have h80 : s.length = 80 := hl
    have := decodePairs_length h
    omega
  · rw [if_pos (by simpa using hl)] at h
    cases h

theorem readKeyFromString_map_toUpper (s : List Nat) :
    readKeyFromString (s.map toUpperAscii) = readKeyFromString s := by
  rw [readKeyFromString, readKeyFromString, List.length_map,
    decodePairs_map_toUpper]

/-! ## Command-line scanning lemmas -/

theorem pStr_ne_hStr : pStr ≠ hStr := by decide

theorem helpCond_nil : ¬ helpCond [] := by
  rintro ⟨pre, post, heq, -⟩
  cases pre <;> simp at heq

theorem pCondAmended_nil : ¬ pCondAmended [] := by
  rintro ⟨pre, i, o, k, k40, heq, -⟩
  cases pre <;> simp at heq

theorem helpCond_cons_h {t : List (List Nat)} : helpCond (hStr :: t) :=
  ⟨[], t, rfl, by simp⟩

theorem helpCond_cons_p {t : List (List Nat)} : ¬ helpCond (pStr :: t) := by
  rintro ⟨pre, post, heq, hnp⟩
  cases pre with
  | nil =>
    simp only [List.nil_append, List.cons.injEq] at heq
    exact pStr_ne_hStr heq.1
  | cons b pre' =>
    simp only [List.cons_append, List.cons.injEq] at heq
    exact hnp (heq.1 ▸ List.mem_cons_self _ _)

theorem helpCond_cons_other {a : List Nat} {t : List (List Nat)}
    (hp : a ≠ pStr) (hh : a ≠ hStr) : helpCond (a :: t) ↔ helpCond t := by
  constructor
  · rintro ⟨pre, post, heq, hnp⟩
    cases pre with
    | nil =>
      simp only [List.nil_append, List.cons.injEq] at heq
      exact absurd heq.1 hh
    | cons b pre' =>
      simp only [List.cons_append, List.cons.injEq] at heq
      exact ⟨pre', post, heq.2, fun hm => hnp (List.mem_cons_of_mem _ hm)⟩
  · rintro ⟨pre, post, heq, hnp⟩
    exact ⟨a :: pre, post, by rw [heq]; rfl, by
      simp only [List.mem_cons, not_or]
      exact ⟨fun h => hp h.symm, hnp⟩⟩

theorem pCondAmended_cons_p {t : List (List Nat)} :
    pCondAmended (pStr :: t) ↔ pParams t := by
  constructor
  · rintro ⟨pre, i, o, k, k40, heq, hnp, hnh, hi, ho, hio, hk⟩
    cases pre with
    | nil =>
      simp only [List.nil_append, List.cons.injEq] at heq
      exact ⟨i, o, k, k40, heq.2, hi, ho, hio, hk⟩
    | cons b pre' =>
      simp only [List.cons_append, List.cons.injEq] at heq
      exact absurd (heq.1 ▸ List.mem_cons_self _ _) hnp
  · rintro ⟨i, o, k, k40, heq, hi, ho, hio, hk⟩
    exact ⟨[], i, o, k, k40, by rw [heq]; rfl, by simp, by simp, hi, ho, hio,
      hk⟩

theorem pCondAmended_cons_h {t : List (List Nat)} :
    ¬ pCondAmended (hStr :: t) := by
  rintro ⟨pre, i, o, k, k40, heq, hnp, hnh, -⟩
  cases pre with
  | nil =>
    simp only [List.nil_append, List.cons.injEq] at heq
    exact pStr_ne_hStr heq.1.symm
  | cons b pre' =>
    simp only [List.cons_append, List.cons.injEq] at heq
    exact hnh (heq.1 ▸ List.mem_cons_self _ _)

theorem pCondAmended_cons_other {a : List Nat} {t : List (List Nat)}
    (hp : a ≠ pStr) (hh : a ≠ hStr) :
    pCondAmended (a :: t) ↔ pCondAmended t := by
  constructor
  · rintro ⟨pre, i, o, k, k40, heq, hnp, hnh, hrest⟩
    cases pre with
    | nil =>
      simp only [List.nil_append, List.cons.injEq] at heq
      exact absurd heq.1 hp
    | cons b pre' =>
      simp only [List.cons_append, List.cons.injEq] at heq
      exact ⟨pre', i, o, k, k40, heq.2,
        fun hm => hnp (List.mem_cons_of_mem _ hm),
        fun hm => hnh (List.mem_cons_of_mem _ hm), hrest⟩
  · rintro ⟨pre, i, o, k, k40, heq, hnp, hnh, hrest⟩
    refine ⟨a :: pre, i, o, k, k40, by rw [heq]; rfl, ?_, ?_, hrest⟩
    · simp only [List.mem_cons, not_or]
      exact ⟨fun h => hp h.symm, hnp⟩
    · simp only [List.mem_cons, not_or]
      exact ⟨fun h => hh h.symm, hnh⟩

theorem init_cons_other {a : List Nat} {t : List (List Nat)}
    (hp : a ≠ pStr) (hh : a ≠ hStr) :
    Program.init (a :: t) = Program.init t := by
  rw [Program.init, Program.init, argScan, if_neg hp, if_neg hh]

theorem init_params_eq (i o k : List Nat) :
    Program.init (pStr :: [i, o, k]) =
      (if i = [] then InitResult.fail
       else if o = [] then InitResult.fail
       else if i = o then InitResult.fail
       else if k = [] then InitResult.fail
       else
         match readKeyFromString k with
         | some key40 => InitResult.ok i o key40
         | none => InitResult.fail) := rfl

theorem init_ne_fail_iff :
    ∀ argv : List (List Nat),
      Program.init argv ≠ .fail ↔ helpCond argv ∨ pCondAmended argv
  | [] => by
    have h0 : Program.init [] = .fail := rfl
    rw [h0]
    simp [helpCond_nil, pCondAmended_nil]
  | a :: t => by
    by_cases hp : a = pStr
    · subst hp
      rcases t with _ | ⟨i, _ | ⟨o, _ | ⟨k, _ | ⟨x, rest⟩⟩⟩⟩
      · have h0 : Program.init [pStr] = .fail := rfl
        rw [h0]
        simp [helpCond_cons_p, pCondAmended_cons_p, pParams]
      · have h0 : Program.init [pStr, i] = .fail := rfl
        rw [h0]
        simp [helpCond_cons_p, pCondAmended_cons_p, pParams]
      · have h0 : Program.init [pStr, i, o] = .fail := rfl
        rw [h0]
        simp [helpCond_cons_p, pCondAmended_cons_p, pParams]
      · rw [init_params_eq]
        constructor
        · intro hne
          right
          rw [pCondAmended_cons_p]
          split_ifs at hne with h1 h2 h3 h4
          · exact absurd rfl hne
          · exact absurd rfl hne
          · exact absurd rfl hne
          · exact absurd rfl hne
          · rcases hkv : readKeyFromString k with _ | k40
            · rw [hkv] at hne
              simp at hne
            · exact ⟨i, o, k, k40, rfl, h1, h2, h3, hkv⟩
        · rintro (hcond | hpc)
          · exact absurd hcond helpCond_cons_p
          · rw [pCondAmended_cons_p] at hpc
            obtain ⟨i', o', k', k40, heq, hi, ho, hio, hk⟩ := hpc
            injection heq with h1 heq
            injection heq with h2 heq
            injection heq with h3 heq
            subst h1
            subst h2
            subst h3
            have hkne : k ≠ [] := by
              intro hknil
              rw [hknil] at hk
              have := (readKeyFromString_some_length hk).1
              simp at this
            rw [if_neg hi, if_neg ho, if_neg hio, if_neg hkne, hk]
            simp
      · have h0 : Program.init (pStr :: i :: o :: k :: x :: rest) =
            .fail := rfl
        rw [h0]
        constructor
        · intro hcond
          exact absurd rfl hcond
        · rintro (hcond | hpc)
          · exact absurd hcond helpCond_cons_p
          · rw [pCondAmended_cons_p] at hpc
            obtain ⟨i', o', k', k40, heq, -⟩ := hpc
            simp at heq
    · by_cases hh : a = hStr
      · subst hh
        have h0 : Program.init (hStr :: t) = .help := rfl
        rw [h0]
        simp [helpCond_cons_h]
      · rw [init_cons_other hp hh, helpCond_cons_other hp hh,
          pCondAmended_cons_other hp hh]
        exact init_ne_fail_iff t

/-! ## Remaining support lemmas for the claims -/

theorem initOfScan_params_fail {inp out key : List Nat}
    (h : readKeyFromString key = none) :
    initOfScan (.params inp out key) = .fail := by
  have h0 : initOfScan (.params inp out key) =
      (if inp = [] then InitResult.fail
       else if out = [] then InitResult.fail
       else if inp = out then InitResult.fail
       else if key = [] then InitResult.fail
       else
         match readKeyFromString key with
         | some key40 => InitResult.ok inp out key40
         | none => InitResult.fail) := rfl
  rw [h0]
  split_ifs <;> first | rfl | rw [h]

theorem mainEvents_of_fail {argv : List (List Nat)} {fs : Nat}
    (h : Program.init argv = .fail) : mainEvents argv fs = (1, []) := by
  simp [mainEvents, h]

theorem mainEvents_of_help {argv : List (List Nat)} {fs : Nat}
    (h : Program.init argv = .help) : mainEvents argv fs = (0, []) := by
  simp [mainEvents, h]

/-! ## The claims -/

/-- C1, counterexample: the claim says a length of 64 or more is never
passed to the partial-block operation, but for a 100-byte file the single
processBytes call receives remainderSize = 100, which is not under 64. -/
theorem C1_counterexample :
    Event.engineBytes 100 ∈ engineTrace 100 ∧ ¬ (100 < 64) := by
  constructor
  · decide
  · decide

/-- C1 (amended): after all full-block calls, the one remaining processBytes
call receives exactly remainderSize = fileSize mod (8192*64), a length that
is positive and under 8192*64 but is not in general under 64. -/
theorem C1_remainder_bound :
    ∀ (fs len : Nat), Event.engineBytes len ∈ engineTrace fs →
      len = fs % chunkSize ∧ 0 < len ∧ len < chunkSize := by
  intro fs len h
  rw [engineTrace_eq] at h
  rcases List.mem_append.mp h with hm | hm
  · have := List.eq_of_mem_replicate hm
    cases this
  · by_cases h0 : remainderSize fs ≠ 0
    · rw [if_pos h0] at hm
      simp only [List.mem_singleton, Event.engineBytes.injEq] at hm
      subst hm
      refine ⟨rfl, ?_, ?_⟩
      · omega
      · exact Nat.mod_lt _ (by rw [chunkSize_eq]; omega)
    · rw [if_neg h0] at hm
      cases hm

/-- C1, witness: a 100-byte file makes the partial call with length 100. -/
theorem C1_witness :
    Event.engineBytes 100 ∈ engineTrace 100 ∧
      (100 = 100 % chunkSize ∧ 0 < 100 ∧ 100 < chunkSize) :=
  ⟨by decide, C1_remainder_bound 100 100 (by decide)⟩

/-- C2: readKeyFromString succeeds exactly on 80-character strings all of
whose characters are hex digits; and when the scan hands it a key string it
rejects, main exits with code 1 and the trace contains no engine
construction. -/
theorem C2_key_validation :
    (∀ s : List Nat, (readKeyFromString s).isSome ↔
      (s.length = 80 ∧ ∀ c ∈ s, isHexDigit c)) ∧
    (∀ (argv : List (List Nat)) (fs : Nat) (inp out key : List Nat),
      argScan argv = .params inp out key → readKeyFromString key = none →
        (mainEvents argv fs).1 = 1 ∧
          Event.engineConstructed ∉ (mainEvents argv fs).2) := by
  constructor
  · exact readKeyFromString_isSome_iff
  · intro argv fs inp out key hscan hkey
    have hfail : Program.init argv = .fail := by
      rw [Program.init, hscan]
      exact initOfScan_params_fail hkey
    rw [mainEvents_of_fail hfail]
    exact ⟨rfl, by simp⟩

/-- C2, witness: the all-zeros 80-character string decodes, and an argv
whose key string is the single letter x makes main fail with exit code 1. -/
theorem C2_witness :
    (readKeyFromString (List.replicate 80 48)).isSome ∧
      (mainEvents [pStr, [105], [111], [120]] 0).1 = 1 :=
  ⟨(C2_key_validation.1 _).mpr ⟨by decide, by decide⟩,
   (C2_key_validation.2 [pStr, [105], [111], [120]] 0 [105] [111] [120]
     (by decide) (by decide)).1⟩

/-- C3: each decoded byte is 16 * digitValue(s[2i]) + digitValue(s[2i+1])
with the digit values the claim describes, and decoding is invariant under
uppercasing the input string. -/
theorem C3_hex_semantics :
    ∀ (s bs : List Nat), readKeyFromString s = some bs →
      (bs.length = 40 ∧
        ∀ i, i < 40 →
          bs.getD i 0 = 16 * claimDigitValue (s.getD (2 * i) 0) +
            claimDigitValue (s.getD (2 * i + 1) 0)) ∧
      readKeyFromString (s.map toUpperAscii) = some bs := by
  intro s bs h
  have hlen := readKeyFromString_some_length h
  have hdp : decodePairs s = some bs := by
    rw [readKeyFromString,
      if_neg (by
        have hks : (2 * Program.KEY_SIZE : Nat) = 80 := rfl
        omega)] at h
    exact h
  refine ⟨⟨hlen.2, ?_⟩, ?_⟩
  · intro i hi
    exact decodePairs_getElem hdp i (by omega)
  · rw [readKeyFromString_map_toUpper]
    exact h

/-- C3, witness: the all-zeros key string decodes to forty zero bytes, its
length is 40, and the uppercased string decodes identically. -/
theorem C3_witness :
    readKeyFromString (List.replicate 80 48) = some (List.replicate 40 0) ∧
      (List.replicate 40 0).length = 40 ∧
      readKeyFromString ((List.replicate 80 48).map toUpperAscii) =
        some (List.replicate 40 0) :=
  ⟨by decide,
   (C3_hex_semantics (List.replicate 80 48) (List.replicate 40 0)
     (by decide)).1.1,
   (C3_hex_semantics (List.replicate 80 48) (List.replicate 40 0)
     (by decide)).2⟩

/-- C4: IV_OFFSET equals the 32-byte Cypher key size, the engine is built
from the first 32 bytes of the decoded buffer, and the nonce handed to
setIv is exactly bytes 32..39 of that buffer. -/
theorem C4_key_iv_split :
    IV_OFFSET = Cypher.KEY_SIZE ∧ IV_OFFSET = 32 ∧
    ∀ key40 : List Nat, key40.length = 40 →
      (initialCypher key40).key = key40.take 32 ∧
      (initialCypher key40).nonce.length = 8 ∧
      ∀ i, i < 8 → (initialCypher key40).nonce[i]? = key40[32 + i]? := by
  refine ⟨rfl, rfl, ?_⟩
  intro key40 h40
  refine ⟨rfl, ?_, ?_⟩
  · show ((key40.drop IV_OFFSET).take Cypher.IV_SIZE).length = 8
    simp only [List.length_take, List.length_drop, Cypher.IV_SIZE, IV_OFFSET,
      Cypher.KEY_SIZE, h40]
    omega
  · intro i hi
    show ((key40.drop IV_OFFSET).take Cypher.IV_SIZE)[i]? = key40[32 + i]?
    simp only [Cypher.IV_SIZE, IV_OFFSET, Cypher.KEY_SIZE]
    rw [List.getElem?_take, if_pos hi, List.getElem?_drop]

/-- C4, witness: for the decoded buffer 0,1,...,39 the first nonce byte is
byte 32 of the buffer. -/
theorem C4_witness :
    (List.range 40).length = 40 ∧
      (initialCypher (List.range 40)).nonce[0]? = (List.range 40)[32 + 0]? :=
  ⟨by decide, (C4_key_iv_split.2.2 (List.range 40) (by decide)).2.2 0
    (by decide)⟩

/-- C5: when command-line validation or hex-key decoding fails, main exits
with code 1 and the event trace is empty: no engine is constructed, no byte
is read or written, and no engine-processing call happens. -/
theorem C5_validation_first :
    ∀ (argv : List (List Nat)) (fs : Nat), Program.init argv = .fail →
      (mainEvents argv fs).1 = 1 ∧
      Event.engineConstructed ∉ (mainEvents argv fs).2 ∧
      (∀ n, Event.fileRead n ∉ (mainEvents argv fs).2) ∧
      (∀ n, Event.fileWrite n ∉ (mainEvents argv fs).2) ∧
      (∀ n, Event.engineBlocks n ∉ (mainEvents argv fs).2) ∧
      (∀ n, Event.engineBytes n ∉ (mainEvents argv fs).2) := by
  intro argv fs h
  rw [mainEvents_of_fail h]
  refine ⟨rfl, by simp, ?_, ?_, ?_, ?_⟩ <;> intro n <;> simp

/-- C5, witness: the empty command line fails validation and main exits
with code 1. -/
theorem C5_witness : (mainEvents [] 0).1 = 1 :=
  (C5_validation_first [] 0 (by decide)).1

/-- C6: the transform is an involution -- applying it twice under the same
32-byte key and 8-byte nonce restores the message, and at the program level
a second run of execute on the produced output restores the original file
contents byte for byte. -/
theorem C6_involution :
    (∀ key nonce m : List Nat, key.length = 32 → nonce.length = 8 →
      transformMessage key nonce (transformMessage key nonce m) = m) ∧
    (∀ key40 data out : List Nat, executeProcess key40 data = some out →
      executeProcess key40 out = some data) :=
  ⟨fun key nonce m _ _ => transformMessage_involution key nonce m,
   fun _ _ _ h => executeProcess_involution h⟩

/-- C6, witness: a 3-byte message under the zero key and nonce is restored
by a double transform, and execute on the empty file round-trips. -/
theorem C6_witness :
    transformMessage (List.replicate 32 0) (List.replicate 8 0)
        (transformMessage (List.replicate 32 0) (List.replicate 8 0)
          [1, 2, 3]) = [1, 2, 3] ∧
      executeProcess (List.replicate 40 0) [] = some [] :=
  ⟨C6_involution.1 _ _ [1, 2, 3] (by decide) (by decide),
   C6_involution.2 (List.replicate 40 0) [] [] (by rfl)⟩

/-- C7: chunk invariance -- processing any partition of a message whose
non-final chunks are whole numbers of 64-byte blocks, in order against one
engine, equals processing the whole message in a single call; and a
full-block call splits at any 64-byte-aligned block count, so one call on
n1 + n2 blocks equals a call on n1 blocks followed by one on n2 blocks from
the resulting state. -/
theorem C7_chunk_invariance :
    (∀ (c : Cypher) (chunks : List (List Nat)),
      (∀ ch ∈ chunks.dropLast, 64 ∣ ch.length) →
      processChunkSeq c chunks = processOneChunk c chunks.flatten) ∧
    (∀ (c : Cypher) (m1 m2 : List Nat) (n1 n2 : Nat), m1.length = 64 * n1 →
      (c.processBlocks (m1 ++ m2) (n1 + n2)).1 =
        (c.processBlocks m1 n1).1 ++
          (((c.processBlocks m1 n1).2).processBlocks m2 n2).1) := by
  constructor
  · intro c chunks h
    exact processChunkSeq_spec chunks c h
  · intro c m1 m2 n1 n2 h1
    rw [processBlocks_fst, processBlocks_fst, processBlocks_snd,
      processBlocks_fst]
    rw [show 64 * (n1 + n2) = 64 * n1 + 64 * n2 by ring, List.take_add,
      ksBlocks_append]
    rw [← h1, List.take_left, List.drop_left]
    rw [List.zipWith_append _ _ _ _ _ (by rw [ksBlocks_length]; omega)]
    simp [List.take_length]

/-- C7, witness: the partition of a 66-byte message into one 64-byte chunk
and a 2-byte remainder processes identically to the single call, and a
1 + 1 block split of a 128-byte message agrees with the 2-block call. -/
theorem C7_witness :
    (∀ ch ∈ [List.replicate 64 5, [1, 2]].dropLast, 64 ∣ ch.length) ∧
      processChunkSeq
          (Cypher.mk (List.replicate 32 0) (List.replicate 8 0) 0)
          [List.replicate 64 5, [1, 2]] =
        processOneChunk
          (Cypher.mk (List.replicate 32 0) (List.replicate 8 0) 0)
          ([List.replicate 64 5, [1, 2]].flatten) ∧
      (List.replicate 64 7).length = 64 * 1 :=
  ⟨by decide,
   C7_chunk_invariance.1 _ [List.replicate 64 5, [1, 2]] (by decide),
   by decide⟩

/-- C8: the streaming loop preserves length and order -- the chunks read
cover the input exactly once in order, numChunks * chunkSize plus
remainderSize equals the file size, and when execute completes, the chunks
written match the chunks read in number and sizes and the total output
length equals the file size. -/
theorem C8_length_order :
    ∀ (key40 data : List Nat),
      (readSequence data).flatten = data ∧
      numChunks data.length * chunkSize + remainderSize data.length =
        data.length ∧
      (∀ ws, executeWrites key40 data = some ws →
        ws.map List.length = (readSequence data).map List.length ∧
        ws.flatten.length = data.length) := by
  intro key40 data
  refine ⟨readSequence_flatten data, ?_, ?_⟩
  · have hdm : 524288 * (data.length / 524288) + data.length % 524288 =
        data.length := Nat.div_add_mod data.length 524288
    have hnc : numChunks data.length = data.length / 524288 := rfl
    have hrs : remainderSize data.length = data.length % 524288 := rfl
    rw [hnc, hrs, chunkSize_eq]
    omega
  · intro ws h
    refine ⟨executeWrites_map_length h, ?_⟩
    have hproc : executeProcess key40 data = some ws.flatten := by
      rw [executeProcess, h, Option.map_some']
    exact executeProcess_length hproc

/-- C8, witness: on the empty file, execute writes nothing, the write
lengths match the read lengths, and the reads cover the input. -/
theorem C8_witness :
    executeWrites (List.replicate 40 0) [] = some [] ∧
      ([] : List (List Nat)).map List.length =
        (readSequence []).map List.length ∧
      (readSequence ([] : List Nat)).flatten = [] :=
  ⟨by rfl,
   ((C8_length_order (List.replicate 40 0) []).2.2 [] (by rfl)).1,
   (C8_length_order (List.replicate 40 0) []).1⟩

/-- C9: partial processing is terminal -- the engine-call trace of execute
contains at most one processBytes call, and any processBytes call is the
last engine call, so no processBlocks call ever follows it. -/
theorem C9_partial_terminal :
    ∀ fs : Nat,
      (engineTrace fs).countP Event.isBytesCall ≤ 1 ∧
      (∀ (pre : List Event) (n : Nat) (post : List Event),
        engineTrace fs = pre ++ Event.engineBytes n :: post → post = []) := by
  intro fs
  constructor
  · rw [engineTrace_eq, List.countP_append, List.countP_replicate]
    by_cases h0 : remainderSize fs ≠ 0 <;>
      simp [h0, Event.isBytesCall, List.countP_cons, List.countP_nil]
  · intro pre n post heq
    rw [engineTrace_eq] at heq
    by_cases h0 : remainderSize fs ≠ 0
    · rw [if_pos h0] at heq
      by_contra hpost
      have hlen := congrArg List.length heq
      simp only [List.length_append, List.length_replicate, List.length_cons,
        List.length_nil] at hlen
      have hpostlen : 0 < post.length := List.length_pos.mpr hpost
      have hprelt : pre.length < numChunks fs := by omega
      have h1 : (pre ++ Event.engineBytes n :: post)[pre.length]? =
          some (Event.engineBytes n) := by
        rw [List.getElem?_append_right (le_refl pre.length)]
        simp
      have h2 : (List.replicate (numChunks fs)
            (Event.engineBlocks NUM_OF_BLOCKS_PER_CHUNK) ++
          [Event.engineBytes (remainderSize fs)])[pre.length]? =
          some (Event.engineBlocks NUM_OF_BLOCKS_PER_CHUNK) := by
        rw [List.getElem?_append_left (by simpa using hprelt),
          List.getElem?_replicate, if_pos hprelt]
      rw [heq, h1] at h2
      cases h2
    · rw [if_neg h0, List.append_nil] at heq
      have hmem := List.mem_append_right pre
        (List.mem_cons_self (Event.engineBytes n) post)
      rw [← heq] at hmem
      have := List.eq_of_mem_replicate hmem
      cases this

/-- C9, witness: a 100-byte file has the one-element engine trace whose
only call is the final processBytes. -/
theorem C9_witness :
    (engineTrace 100).countP Event.isBytesCall ≤ 1 ∧ ([] : List Event) = [] :=
  ⟨(C9_partial_terminal 100).1, (C9_partial_terminal 100).2 [] 100 []
    (by decide)⟩

/-- C10, counterexample: the claim accepts any argv in which some "-p" is
followed by exactly three valid arguments, but when an earlier "-p" is not
at that position the program breaks out of its scan and fails: here the
second "-p" is followed by a valid triple, yet initialize fails. -/
theorem C10_counterexample :
    Program.init [[97], pStr, [98], pStr, [105], [111],
        List.replicate 80 48] = .fail ∧
      pCondClaim [[97], pStr, [98], pStr, [105], [111],
        List.replicate 80 48] :=
  ⟨by decide,
   ⟨[[97], pStr, [98]], [105], [111], List.replicate 80 48,
     List.replicate 40 0, by decide, by decide, by decide, by decide,
     by decide⟩⟩

/-- C10 (amended): initialize succeeds iff either some "-h" occurs before
any "-p", or the first argument equal to "-p" -- with no "-h" before it --
is followed by exactly three further arguments: a non-empty input name, a
distinct non-empty output name, and a valid 80-character hex key; and in
help mode main exits 0 without any file or engine event. -/
theorem C10_acceptance :
    ∀ argv : List (List Nat),
      (Program.init argv ≠ .fail ↔ helpCond argv ∨ pCondAmended argv) ∧
      (∀ fs : Nat, Program.init argv = .help → mainEvents argv fs = (0, [])) := by
  intro argv
  constructor
  · exact init_ne_fail_iff argv
  · intro fs h
    exact mainEvents_of_help h

/-- C10, witness: the single argument "-h" is accepted in help mode and
main performs no file or engine event. -/
theorem C10_witness :
    Program.init [hStr] ≠ InitResult.fail ∧ mainEvents [hStr] 0 = (0, []) :=
  ⟨(C10_acceptance [hStr]).1.mpr (Or.inl ⟨[], [], rfl, by simp⟩),
   (C10_acceptance [hStr]).2 0 (by decide)⟩

end Salsa20
